import Mathlib

/-!
Verification of the QTSIT random-walk multi-armed-bandit code
(`qtsit/algorithms/MAB_WALKS.py` and `qtsit/algorithms/randomwalk.py`).

The Python sources are shallowly embedded: qiskit circuits become lists of
gate descriptions acting on computational-basis bitstrings (`List Bool`),
the mutable walker objects become explicit state records, loops become
folds over the lists of random draws the loops consume, and Python floats
become `ℚ` (for the exactly-representable arithmetic the claims are about)
or `ℝ` (for the transcendental decay function).
-/

namespace QTSIT

/-! ## Bit-level helpers

`bitLenFuel fuel p` computes the binary bit length of `p` (number of digits
of `bin(p)` in Python, 0 for `p = 0`) by repeated halving; the fuel argument
makes the recursion structural, and `fuel = p` always suffices because the
number of halvings needed is at most `p`. -/

def bitLenFuel : Nat → Nat → Nat
  | 0, _ => 0
  | fuel + 1, p => if p = 0 then 0 else bitLenFuel fuel (p / 2) + 1

def bitLen (p : Nat) : Nat := bitLenFuel p p

/-- `n = int(np.ceil(np.log2(size)))` from `QuantumWalk.__init__`
(MAB_WALKS.py line 189): the ceiling of the base-2 logarithm of `size`,
which for `size ≥ 1` equals the bit length of `size - 1`. -/
def nQubits (size : Nat) : Nat := bitLen (size - 1)

/-- The big-endian `w`-bit binary string of `p` (most-significant bit
first), as produced by `bin(p)[2:].zfill(w)` whenever `w` is at least the
bit length of `p`. -/
def binStr (w p : Nat) : List Bool :=
  (List.range w).map (fun i => p.testBit (w - 1 - i))

/-- `self.init_state = str(bin(initial_pos)[2:].zfill(5))` from
`Walk.__init__` (MAB_WALKS.py line 75) and `Walk.explore` (line 110):
the binary digits of the position, most-significant first, zero-padded on
the left to width 5.  Python's `bin(0)[2:]` is the one-character string
`"0"` and `zfill(5)` never truncates, so the width is
`max 5 (max 1 (bitLen p))`. -/
def initState (p : Nat) : List Bool :=
  binStr (max 5 (max 1 (bitLen p))) p

/-- Decode a big-endian bit string to the natural number it encodes. -/
def binVal (bits : List Bool) : Nat :=
  bits.foldl (fun acc b => 2 * acc + (if b then 1 else 0)) 0

/-! ## Gate-level circuit model

A quantum circuit built from X / CNOT / Toffoli / multi-controlled-NOT
gates permutes the computational basis; on a basis bitstring each gate
flips its target bit exactly when all control bits are set.  This is the
standard basis-state semantics of `qc.x`, `qc.cx`, `qc.ccx`, `qc.mcx`. -/

inductive Gate
  | x (t : Nat)
  | cx (c t : Nat)
  | ccx (a b t : Nat)
  | mcx (controls : List Nat) (t : Nat)
deriving DecidableEq

/-- Flip the bit at index `t` of a basis state. -/
def flipAt (s : List Bool) (t : Nat) : List Bool :=
  s.set t (!(s.getD t false))

/-- Action of one gate on a computational-basis state. -/
def applyGate (s : List Bool) : Gate → List Bool
  | .x t => flipAt s t
  | .cx c t => if s.getD c false then flipAt s t else s
  | .ccx a b t => if s.getD a false && s.getD b false then flipAt s t else s
  | .mcx cs t => if cs.all (fun c => s.getD c false) then flipAt s t else s

/-- Action of a whole gate list, first gate applied first. -/
def applyCircuit (g : List Gate) (s : List Bool) : List Bool :=
  g.foldl applyGate s

/-- The gate list of `QuantumWalk.incremment_gate` (MAB_WALKS.py lines
192-206) on `n + 1` qubits: local qubit 0 is the coin control, local
qubits `1..n` are the position bits (least-significant first, matching
how `walk` wires the gate onto circuit qubits `1..n+1` with the position
register prepared little-endian on circuit qubits `2..n+1`):

    qc.cx(0, 1)
    qc.ccx(0, 1, 2)
    for i in range(2, self.n + 1):
        qc.mcx([j for j in range(i)], i)
-/
def incremment_gate (n : Nat) : List Gate :=
  [Gate.cx 0 1, Gate.ccx 0 1 2] ++
    (List.range' 2 (n - 1)).map (fun i => Gate.mcx (List.range i) i)

/-- One `i`-indexed section of the loop body of
`QuantumWalk.decrement_two_coins` (MAB_WALKS.py lines 218-222), executed
for `i > 1`:

    qc.x([j for j in range(2, i + 1)])
    qc.mcx([j for j in range(i + 1)], i + 1)
    qc.x([j for j in range(2, i + 1)])
-/
def decSection (i : Nat) : List Gate :=
  ((List.range' 2 (i - 1)).map Gate.x) ++
    [Gate.mcx (List.range (i + 1)) (i + 1)] ++
    ((List.range' 2 (i - 1)).map Gate.x)

/-- Sections of the decrement loop `for i in range(self.n, 0, -1)` with the
`if i > 1` guard, i.e. for `i = n, n-1, ..., 2`, in that order. -/
def decSections : Nat → List Gate
  | 0 => []
  | 1 => []
  | m + 2 => decSection (m + 2) ++ decSections (m + 1)

/-- The gate list of `QuantumWalk.decrement_two_coins` (MAB_WALKS.py lines
208-224) on `n + 2` qubits: the guarded countdown loop followed by
`qc.ccx(0, 1, 2)`. -/
def decrement_two_coins (n : Nat) : List Gate :=
  decSections n ++ [Gate.ccx 0 1 2]

/-- The basis state fed to `incremment_gate`: local qubit 0 is the coin,
local qubits `1..n` hold the position value `v` little-endian. -/
def incInput (n v : Nat) (coin : Bool) : List Bool :=
  coin :: (List.range n).map (fun i => v.testBit i)

/-- Decode the position value (little-endian, local qubits `1..n`) from a
state of the increment gate's wires. -/
def incOutputVal (n : Nat) (s : List Bool) : Nat :=
  (List.range n).foldl (fun acc i => acc + (if s.getD (i + 1) false then 2 ^ i else 0)) 0

/-! ## `np.argmax`

`np.array(xs).argmax()` returns the index of the first occurrence of the
maximum value. -/

def argmaxAux : List ℚ → Nat → Nat → ℚ → Nat
  | [], _, bi, _ => bi
  | a :: t, i, bi, bv => if bv < a then argmaxAux t (i + 1) i a else argmaxAux t (i + 1) bi bv

/-- Index of the first occurrence of the maximum of a list (`np.argmax`);
0 on the empty list. -/
def argmaxQ : List ℚ → Nat
  | [] => 0
  | a :: t => argmaxAux t 1 0 a

/-! ## State of `Walk` (MAB_WALKS.py)

One record per mutable attribute set in `Walk.__init__` (lines 64-76).
Python floats become `ℚ`; the exponential-decay values written into
`walking_space` are not exactly representable, so the decay map
`ℚ → ℚ` is a parameter of the step function (its values never feed back
into the claims' fields; the real-valued decay function itself is
verified separately as `decay`). -/

structure WalkState where
  size : Nat
  j : Nat
  k : Nat
  steps : Nat
  initial_theta : ℚ
  pos_index : Nat
  ground_truth : List ℚ
  emp_truth : List ℚ
  happiness : List Nat
  hits : List Nat
  walking_space : List ℚ
  init_state : List Bool
deriving DecidableEq

/-- `Walk.__init__(size, initial_pos, initial_theta, steps, j, k, gt)`
(MAB_WALKS.py lines 41-76): plain field assignments, no validation of any
argument. -/
def Walk.init (size initial_pos : Nat) (initial_theta : ℚ) (steps j k : Nat)
    (gt : List ℚ) : WalkState :=
  { size := size
    j := j
    k := k
    steps := steps
    initial_theta := initial_theta
    pos_index := initial_pos
    ground_truth := gt
    emp_truth := List.replicate size 0
    happiness := List.replicate size 0
    hits := List.replicate size 0
    walking_space := List.replicate size initial_theta
    init_state := initState initial_pos }

/-- One iteration of the loop body of `Walk.explore` (MAB_WALKS.py lines
98-110).  The two random effects are inputs: `walkPos` is the walker's
position after the `self.walk()` phase (the subclasses move only
`pos_index`; the base class leaves it unchanged) and `x` is the Bernoulli
draw of `slotMachine`.  `decayFn e` stands for
`self.initial_theta * np.exp(-a * np.power(e, b))` with `a = 5, b = 6`. -/
def Walk.trialStep (decayFn : ℚ → ℚ) (s : WalkState) (walkPos : Nat) (x : Bool) :
    WalkState :=
  let pos := walkPos
  let hap := if x then s.happiness.set pos (s.happiness.getD pos 0 + 1) else s.happiness
  let hts := s.hits.set pos (s.hits.getD pos 0 + 1)
  let emp := s.emp_truth.set pos ((hap.getD pos 0 : ℚ) / (hts.getD pos 0 : ℚ))
  let ws := (List.range s.size).map (fun i => decayFn (emp.getD i 0))
  let newPos := argmaxQ emp
  { s with pos_index := newPos
           happiness := hap
           hits := hts
           emp_truth := emp
           walking_space := ws
           init_state := initState newPos }

/-- `Walk.explore` (MAB_WALKS.py lines 91-110): the `j`-trial loop, as a
fold over the list of per-trial random inputs. -/
def Walk.explore (decayFn : ℚ → ℚ) (s : WalkState) (trials : List (Nat × Bool)) :
    WalkState :=
  trials.foldl (fun st t => Walk.trialStep decayFn st t.1 t.2) s

/-! ## State of `QuantumWalk` (MAB_WALKS.py)

`QuantumWalk.__init__` adds the register width `n` and the circuit
object `q_walk`; the circuit is embedded as the list of instructions
appended to it. -/

inductive QOp
  | prepare (bits : List Bool) (qubits : List Nat)
  | u (theta phi lam : ℚ) (q : Nat)
  | append (g : List Gate) (qubits : List Nat)
  | x (q : Nat)
  | measure (q c : Nat)
deriving DecidableEq

structure QuantumWalkState where
  size : Nat
  j : Nat
  k : Nat
  steps : Nat
  initial_theta : ℚ
  pos_index : Nat
  ground_truth : List ℚ
  emp_truth : List ℚ
  happiness : List Nat
  hits : List Nat
  walking_space : List ℚ
  init_state : List Bool
  n : Nat
  q_walk : List QOp
deriving DecidableEq

/-- `QuantumWalk.walk` (MAB_WALKS.py lines 226-243): clears `q_walk` and
rebuilds it — state preparation on circuit qubits `2..n+1`, then per step
two `u` rotations on the coin qubits 0 and 1 by the current bias, the
increment gate on qubits `1..n+1`, and the decrement gate on qubits
`0..n+1` sandwiched between `x(1)` gates, then measurement of the
position qubits.  The commented-out simulator block (lines 245-248) never
runs, so no other attribute is assigned. -/
def QuantumWalk.walk (s : QuantumWalkState) : QuantumWalkState :=
  { s with q_walk :=
      [QOp.prepare s.init_state ((List.range s.n).map (fun i => i + 2))] ++
      (List.range s.steps).foldr (fun _ acc =>
        [QOp.u (s.walking_space.getD s.pos_index 0) 0 0 0,
         QOp.u (s.walking_space.getD s.pos_index 0) 0 0 1,
         QOp.append (incremment_gate s.n) ((List.range (s.n + 1)).map (fun i => i + 1)),
         QOp.x 1,
         QOp.append (decrement_two_coins s.n) (List.range (s.n + 2)),
         QOp.x 1] ++ acc) [] ++
      (List.range s.n).map (fun i => QOp.measure (i + 2) i) }

/-! ## State of `classical_walk` (randomwalk.py)

Fields from `classical_walk.__init__` (lines 11-37).  `self.result` is a
string that starts as `""`; `self.pos` is the bias triple fetched by
`goto_pos` and starts as the empty list `[]`, modelled by the placeholder
triple `(0, 0, 0)` (every walk step calls `goto_pos` before reading it). -/

inductive TossResult
  | empty
  | back
  | stay
  | forward
deriving DecidableEq

structure CWState where
  size : Nat
  j : Nat
  k : Nat
  result : TossResult
  steps : Nat
  toss_val : ℚ
  walking_space : List (ℚ × ℚ × ℚ)
  pos : ℚ × ℚ × ℚ
  pos_index : Nat
  ground_truth : List ℚ
  emp_truth : List ℚ
  happiness : List Nat
  hits : List Nat
  cumsum : Nat
deriving DecidableEq

/-- `classical_walk.__init__` (randomwalk.py lines 11-37): plain field
assignments, `walking_space` a list of `size` copies of `[0.5, 0, 0.5]`,
no validation of any argument. -/
def classical_walk.init (size initial_pos steps j k : Nat) (gt : List ℚ)
    (toss_val : ℚ) : CWState :=
  { size := size
    j := j
    k := k
    result := TossResult.empty
    steps := steps
    toss_val := toss_val
    walking_space := List.replicate size (1/2, 0, 1/2)
    pos := (0, 0, 0)
    pos_index := initial_pos
    ground_truth := gt
    emp_truth := List.replicate size 0
    happiness := List.replicate size 0
    hits := List.replicate size 0
    cumsum := 0 }

/-- `classical_walk.goto_pos` (randomwalk.py lines 39-42):
`self.pos = self.walking_space[self.pos_index]`. -/
def classical_walk.goto_pos (s : CWState) : CWState :=
  { s with pos := s.walking_space.getD s.pos_index (0, 0, 0) }

/-- `classical_walk.coin_toss` (randomwalk.py lines 44-54) at a drawn
uniform value `u`: three successive conditional assignments to
`self.result`, each overwriting the previous one when its guard holds. -/
def classical_walk.coin_toss (s : CWState) (u : ℚ) : CWState :=
  let r1 := if 0 ≤ u ∧ u ≤ s.pos.1 then TossResult.back else s.result
  let r2 := if s.pos.1 < u ∧ u ≤ s.pos.1 + s.pos.2.1 then TossResult.stay else r1
  let r3 := if s.pos.1 + s.pos.2.1 < u ∧ u ≤ 1 then TossResult.forward else r2
  { s with toss_val := u, result := r3 }

/-- `classical_walk.one_walk` (randomwalk.py lines 56-78): the
boundary-aware position update.  Inside each branch the source has two
separate `if` statements, but the first one never changes `self.result`,
so they behave as an if/else-if chain. -/
def classical_walk.one_walk (s : CWState) : CWState :=
  if s.pos_index = s.size - 1 then
    if s.result = TossResult.back then { s with pos_index := s.pos_index - 1 }
    else if s.result = TossResult.forward then { s with pos_index := 0 }
    else s
  else if s.pos_index = 0 then
    if s.result = TossResult.back then { s with pos_index := s.size - 1 }
    else if s.result = TossResult.forward then { s with pos_index := s.pos_index + 1 }
    else s
  else
    if s.result = TossResult.back then { s with pos_index := s.pos_index - 1 }
    else if s.result = TossResult.forward then { s with pos_index := s.pos_index + 1 }
    else s

/-- One iteration of the loop body of `classical_walk.walkk`
(randomwalk.py lines 80-84) at a drawn uniform value `u`. -/
def classical_walk.walkStep (s : CWState) (u : ℚ) : CWState :=
  classical_walk.one_walk (classical_walk.coin_toss (classical_walk.goto_pos s) u)

/-- `classical_walk.walkk` (randomwalk.py lines 80-84): `steps` iterations
of `goto_pos; coin_toss; one_walk`, as a fold over the list of uniform
draws the loop consumes. -/
def classical_walk.walkk (s : CWState) (us : List ℚ) : CWState :=
  us.foldl classical_walk.walkStep s

/-- The post-walk part of the loop body of `classical_walk.explore`
(randomwalk.py lines 95-107), applied to the state `s1` left by the walk:
pull the slot machine (`x` is the Bernoulli draw), update the counters and
the empirical truth at the current position, rebuild every
`walking_space` triple from the decay of the empirical truth, and
greedily re-anchor the position at the argmax.  `decayFn e` stands for
`0.5 * np.exp(-a * np.power(e, b))` with `a = 9, b = 6`; each triple is
`[p0, 1 - 2*p0, p0]` (lines 103-106). -/
def classical_walk.updatePhase (decayFn : ℚ → ℚ) (s1 : CWState) (x : Bool) : CWState :=
  let pos := s1.pos_index
  let hap := if x then s1.happiness.set pos (s1.happiness.getD pos 0 + 1) else s1.happiness
  let hts := s1.hits.set pos (s1.hits.getD pos 0 + 1)
  let emp := s1.emp_truth.set pos ((hap.getD pos 0 : ℚ) / (hts.getD pos 0 : ℚ))
  let ws := (List.range s1.size).map (fun i =>
    let p0 := decayFn (emp.getD i 0)
    (p0, 1 - 2 * p0, p0))
  { s1 with pos_index := argmaxQ emp
            happiness := hap
            hits := hts
            emp_truth := emp
            walking_space := ws }

/-- One iteration of the loop body of `classical_walk.explore`
(randomwalk.py lines 93-107): the walk (`self.walkk()`, consuming the
uniform draws `us`) followed by the counter/bias/re-anchor update. -/
def classical_walk.trialStep (decayFn : ℚ → ℚ) (s : CWState) (us : List ℚ)
    (x : Bool) : CWState :=
  classical_walk.updatePhase decayFn (classical_walk.walkk s us) x

/-- `classical_walk.explore` (randomwalk.py lines 90-107): the `j`-trial
loop, as a fold over the per-trial random inputs (the walk's uniform
draws and the slot machine's Bernoulli draw). -/
def classical_walk.explore (decayFn : ℚ → ℚ) (s : CWState)
    (trials : List (List ℚ × Bool)) : CWState :=
  trials.foldl (fun st t => classical_walk.trialStep decayFn st t.1 t.2) s

/-! ## The decay function

`decay(successRate, a, b, base) = base * exp(-a * successRate ^ b)` — the
value written into the walking space by `Walk.explore` line 108
(`self.initial_theta * np.exp(-a * np.power(self.emp_truth[j], b))`) and
by `classical_walk.explore` lines 103-104 (with `base = 0.5`), over the
real numbers (`^` is the real power `Real.rpow`). -/

noncomputable def decay (successRate a b base : ℝ) : ℝ :=
  base * Real.exp (-(a * successRate ^ b))

/-- The spec's validity condition on a ground-truth sequence (§7
`InvalidGroundTruth`): every entry in `[0, 1]` and length equal to
`size`. -/
def validGroundTruth (size : Nat) (gt : List ℚ) : Prop :=
  gt.length = size ∧ ∀ q ∈ gt, 0 ≤ q ∧ q ≤ 1

/-- The empirical-truth relation of the spec: at every position `i` below
`size`, `empiricalTruth[i]` is 0 while `hits[i] = 0` and is exactly
`happiness[i] / hits[i]` once `hits[i] > 0`. -/
def empOK (hap hits : List Nat) (emp : List ℚ) (size : Nat) : Prop :=
  ∀ i, i < size →
    (hits.getD i 0 = 0 → emp.getD i 0 = 0) ∧
    (0 < hits.getD i 0 → emp.getD i 0 = (hap.getD i 0 : ℚ) / (hits.getD i 0 : ℚ))

/-- The counter invariant of the spec: `happiness[i] ≤ hits[i]` at every
position `i` below `size`. -/
def hapLeHits (hap hits : List Nat) (size : Nat) : Prop :=
  ∀ i, i < size → hap.getD i 0 ≤ hits.getD i 0

/-- Inductive invariant of the MAB exploration loop. -/
def WalkState.inv (s : WalkState) : Prop :=
  s.happiness.length = s.size ∧ s.hits.length = s.size ∧ s.emp_truth.length = s.size ∧
  empOK s.happiness s.hits s.emp_truth s.size ∧
  hapLeHits s.happiness s.hits s.size

/-- Inductive invariant of the classical exploration loop. -/
def CWState.inv (s : CWState) : Prop :=
  2 ≤ s.size ∧ s.pos_index < s.size ∧
  s.happiness.length = s.size ∧ s.hits.length = s.size ∧ s.emp_truth.length = s.size ∧
  empOK s.happiness s.hits s.emp_truth s.size ∧
  hapLeHits s.happiness s.hits s.size

/-! ## Theorems -/

/-- C1 (code_bug evidence): the "Inc" gate of `QuantumWalk.incremment_gate`
is not a binary incrementer.  At register width `n = 2` (`size = 4`),
applied to the encoding of `v = 1 < size - 1` with the coin qubit set to
forward (`|1⟩`), the circuit — `cx(0,1); ccx(0,1,2); mcx([0,1],2)`, in
which the last two gates cancel — returns the encoding of `0`, not
`v + 1 = 2`.  The gate's own name and docstring promise an increment
gate, so the claim states the intent and the code is the slip. -/
theorem incremment_gate_violates_increment :
    nQubits 4 = 2 ∧
    applyCircuit (incremment_gate 2) (incInput 2 1 true) = incInput 2 0 true ∧
    incOutputVal 2 (applyCircuit (incremment_gate 2) (incInput 2 1 true)) = 0 ∧
    (0 : Nat) ≠ 1 + 1 := by decide

/-- C7: the decay function `successRate ↦ base * exp(-a * successRate ^ b)`
is strictly decreasing on `[0, 1]` for every fixed `a > 0`, `b > 0`,
`base > 0`; in particular `decay 0.9 a b base < decay 0.1 a b base`. -/
theorem decay_strict_decreasing :
    (∀ s1 s2 a b base : ℝ, 0 ≤ s1 → s1 < s2 → s2 ≤ 1 → 0 < a → 0 < b → 0 < base →
      decay s2 a b base < decay s1 a b base) ∧
    (∀ a b base : ℝ, 0 < a → 0 < b → 0 < base →
      decay (9/10) a b base < decay (1/10) a b base) := by
  have main : ∀ s1 s2 a b base : ℝ, 0 ≤ s1 → s1 < s2 → s2 ≤ 1 → 0 < a → 0 < b →
      0 < base → decay s2 a b base < decay s1 a b base := by
    intro s1 s2 a b base hs1 hs12 _ ha hb hbase
    unfold decay
    have h1 : s1 ^ b < s2 ^ b := Real.rpow_lt_rpow hs1 hs12 hb
    have h3 : Real.exp (-(a * s2 ^ b)) < Real.exp (-(a * s1 ^ b)) := by
      apply Real.exp_lt_exp.mpr
      have h2 := mul_lt_mul_of_pos_left h1 ha
      linarith
    exact mul_lt_mul_of_pos_left h3 hbase
  refine ⟨main, fun a b base ha hb hbase => ?_⟩
  exact main (1/10) (9/10) a b base (by norm_num) (by norm_num) (by norm_num) ha hb hbase

/-- Witness for C7 at the historically used constants `a = 5`, `b = 6`,
`base = 0.5`. -/
theorem decay_strict_decreasing_witness :
    decay (9/10) 5 6 (1/2) < decay (1/10) 5 6 (1/2) :=
  decay_strict_decreasing.2 5 6 (1/2) (by norm_num) (by norm_num) (by norm_num)

/-- C8 (counterexample): the prepared initial state is zero-padded to the
hardcoded width 5, not to `n = ceil(log2(size))` bits.  At `size = 4`
(so `n = 2`) and position `1`, `bin(1)[2:].zfill(5)` is `"00001"`:
5 characters, not 2. -/
theorem init_state_width_counterexample :
    nQubits 4 = 2 ∧
    initState 1 = [false, false, false, false, true] ∧
    (initState 1).length = 5 ∧
    (initState 1).length ≠ nQubits 4 := by decide

/-- C8 (amended): the initial-state string is the binary encoding of the
position zero-padded to width 5 (`bin(p)[2:].zfill(5)`), so it is the
`n = ceil(log2(size))`-bit most-significant-first encoding of the
position exactly when `n = 5`, i.e. for `16 < size ≤ 32`. -/
theorem init_state_width_amended (size p : Nat) (hp : p < size) (h1 : 16 < size)
    (h2 : size ≤ 32) :
    initState p = binStr (nQubits size) p ∧
    (initState p).length = nQubits size ∧
    binVal (initState p) = p := by
  have hn : nQubits size = 5 := by interval_cases size <;> decide
  have hp32 : p < 32 := lt_of_lt_of_le hp h2
  have key : ∀ q, q < 32 → initState q = binStr 5 q ∧
      (initState q).length = 5 ∧ binVal (initState q) = q := by decide
  rw [hn]
  exact key p hp32

/-- Witness for the amended C8 at `size = 20`, position `3`. -/
theorem init_state_width_amended_witness :
    (3 < 20 ∧ 16 < 20 ∧ 20 ≤ 32) ∧ initState 3 = binStr (nQubits 20) 3 :=
  ⟨by decide, (init_state_width_amended 20 3 (by decide) (by decide) (by decide)).1⟩

/-- C9 (counterexample): neither constructor validates the ground truth.
With `size = 1` and ground truth `[3/2]` (an entry outside `[0, 1]`), both
`Walk.__init__` and `classical_walk.__init__` — straight-line field
assignments with no checks and no error path — complete normally and
store the invalid sequence, and the exploration loop then runs its first
trial normally; nothing fails at setup time. -/
theorem init_no_validation_counterexample :
    ¬ validGroundTruth 1 [3/2] ∧
    (Walk.init 1 0 1 1 1 1 [3/2]).ground_truth = [3/2] ∧
    (classical_walk.init 1 0 1 1 1 [3/2] (1/10)).ground_truth = [3/2] ∧
    (Walk.explore id (Walk.init 1 0 1 1 1 1 [3/2]) [(0, true)]).hits = [1] := by
  refine ⟨?_, rfl, rfl, rfl⟩
  intro h
  have h2 := (h.2 (3/2) (by simp)).2
  norm_num at h2

/-- C9 (amended): setup performs no ground-truth validation — the
constructors accept any ground-truth sequence (entries outside `[0, 1]`,
any length) and store it unchanged, raising no error before the run
starts. -/
theorem init_accepts_any_ground_truth (size initial_pos : Nat) (theta : ℚ)
    (steps j k : Nat) (gt : List ℚ) (tv : ℚ) :
    (Walk.init size initial_pos theta steps j k gt).ground_truth = gt ∧
    (classical_walk.init size initial_pos steps j k gt tv).ground_truth = gt :=
  ⟨rfl, rfl⟩

/-- C10: `QuantumWalk.walk` only rebuilds the circuit object `q_walk`;
every other attribute — in particular `pos_index`, `happiness`, `hits`,
`emp_truth` and `walking_space` — is left unchanged, so within a trial of
the quantum variant the position changes only through the greedy
re-anchor step of `explore`, never through circuit measurement (the
simulation block is commented out). -/
theorem quantum_walk_frame (s : QuantumWalkState) :
    (QuantumWalk.walk s).pos_index = s.pos_index ∧
    (QuantumWalk.walk s).happiness = s.happiness ∧
    (QuantumWalk.walk s).hits = s.hits ∧
    (QuantumWalk.walk s).emp_truth = s.emp_truth ∧
    (QuantumWalk.walk s).walking_space = s.walking_space ∧
    (QuantumWalk.walk s).size = s.size ∧
    (QuantumWalk.walk s).ground_truth = s.ground_truth ∧
    (QuantumWalk.walk s).init_state = s.init_state :=
  ⟨rfl, rfl, rfl, rfl, rfl, rfl, rfl, rfl⟩

/-- C2: writing `(pBack, pStay, pForward)` for the current bias triple
`self.pos`, the coin toss at a drawn uniform `u ∈ [0, 1)` with
non-negative biases summing to 1 yields BACK exactly on `[0, pBack]`,
STAY exactly on `(pBack, pBack + pStay]` and FORWARD exactly on
`(pBack + pStay, 1)` — the claim's cumulative threshold intervals with
ties at the interval boundaries resolved by the upper bound inclusive,
as the claim specifies (so `u = pBack` gives BACK, `u = pBack + pStay`
gives STAY).  The result does not depend on the previous `self.result`. -/
theorem coin_toss_threshold_intervals (s : CWState) (u : ℚ)
    (hB : 0 ≤ s.pos.1) (hS : 0 ≤ s.pos.2.1) (hF : 0 ≤ s.pos.2.2)
    (hsum : s.pos.1 + s.pos.2.1 + s.pos.2.2 = 1)
    (hu0 : 0 ≤ u) (hu1 : u < 1) :
    ((classical_walk.coin_toss s u).result = TossResult.back ↔ u ≤ s.pos.1) ∧
    ((classical_walk.coin_toss s u).result = TossResult.stay ↔
      s.pos.1 < u ∧ u ≤ s.pos.1 + s.pos.2.1) ∧
    ((classical_walk.coin_toss s u).result = TossResult.forward ↔
      s.pos.1 + s.pos.2.1 < u) := by
  have hres : (classical_walk.coin_toss s u).result =
      (if s.pos.1 + s.pos.2.1 < u ∧ u ≤ 1 then TossResult.forward
       else if s.pos.1 < u ∧ u ≤ s.pos.1 + s.pos.2.1 then TossResult.stay
       else if 0 ≤ u ∧ u ≤ s.pos.1 then TossResult.back else s.result) := rfl
  rw [hres]
  rcases le_or_lt u s.pos.1 with h | h
  · have c2 : ¬ (s.pos.1 < u ∧ u ≤ s.pos.1 + s.pos.2.1) := by
      rintro ⟨hc, -⟩; linarith
    have c3 : ¬ (s.pos.1 + s.pos.2.1 < u ∧ u ≤ 1) := by
      rintro ⟨hc, -⟩; linarith
    rw [if_neg c3, if_neg c2, if_pos ⟨hu0, h⟩]
    refine ⟨⟨fun _ => h, fun _ => rfl⟩, ?_, ?_⟩
    · exact ⟨fun hh => absurd hh (by decide), fun hh => absurd hh c2⟩
    · exact ⟨fun hh => absurd hh (by decide), fun hh => by linarith⟩
  · rcases le_or_lt u (s.pos.1 + s.pos.2.1) with h2 | h2
    · have c3 : ¬ (s.pos.1 + s.pos.2.1 < u ∧ u ≤ 1) := by
        rintro ⟨hc, -⟩; linarith
      rw [if_neg c3, if_pos ⟨h, h2⟩]
      refine ⟨?_, ⟨fun _ => ⟨h, h2⟩, fun _ => rfl⟩, ?_⟩
      · exact ⟨fun hh => absurd hh (by decide), fun hh => by linarith⟩
      · exact ⟨fun hh => absurd hh (by decide), fun hh => by linarith⟩
    · rw [if_pos ⟨h2, le_of_lt hu1⟩]
      refine ⟨?_, ?_, ⟨fun _ => h2, fun _ => rfl⟩⟩
      · exact ⟨fun hh => absurd hh (by decide), fun hh => by linarith⟩
      · exact ⟨fun hh => absurd hh (by decide), fun hh => absurd hh.2 (not_le.mpr h2)⟩

/-- Witness for C2: bias triple `(0, 0, 1)` and the boundary draw
`u = 0 = pBack` — resolved to BACK by the upper-bound-inclusive rule. -/
theorem coin_toss_threshold_intervals_witness :
    (classical_walk.coin_toss
      { classical_walk.init 2 0 1 1 1 [] 0 with pos := ((0 : ℚ), (0 : ℚ), (1 : ℚ)) }
      0).result = TossResult.back :=
  ((coin_toss_threshold_intervals _ 0 (by norm_num) (by norm_num) (by norm_num)
    (by norm_num) (by norm_num) (by norm_num)).1).mpr (by norm_num)

/-- C3: the per-move transition of `one_walk` for `size ≥ 2` and a
position in range: at `pos = size - 1`, BACK goes to `pos - 1`, FORWARD
wraps to `0`, STAY stays; at `pos = 0`, BACK wraps to `size - 1`, FORWARD
goes to `1`, STAY stays; at interior positions, BACK goes to `pos - 1`,
FORWARD to `pos + 1`, STAY stays. -/
theorem one_walk_transition_cases (s : CWState) (h2 : 2 ≤ s.size)
    (hp : s.pos_index < s.size) :
    (s.pos_index = s.size - 1 →
      (s.result = TossResult.back →
        (classical_walk.one_walk s).pos_index = s.pos_index - 1) ∧
      (s.result = TossResult.forward → (classical_walk.one_walk s).pos_index = 0) ∧
      (s.result = TossResult.stay →
        (classical_walk.one_walk s).pos_index = s.pos_index)) ∧
    (s.pos_index = 0 →
      (s.result = TossResult.back →
        (classical_walk.one_walk s).pos_index = s.size - 1) ∧
      (s.result = TossResult.forward → (classical_walk.one_walk s).pos_index = 1) ∧
      (s.result = TossResult.stay →
        (classical_walk.one_walk s).pos_index = s.pos_index)) ∧
    (0 < s.pos_index → s.pos_index < s.size - 1 →
      (s.result = TossResult.back →
        (classical_walk.one_walk s).pos_index = s.pos_index - 1) ∧
      (s.result = TossResult.forward →
        (classical_walk.one_walk s).pos_index = s.pos_index + 1) ∧
      (s.result = TossResult.stay →
        (classical_walk.one_walk s).pos_index = s.pos_index)) := by
  unfold classical_walk.one_walk
  refine ⟨?_, ?_, ?_⟩
  · intro he
    rw [if_pos he]
    refine ⟨?_, ?_, ?_⟩ <;> intro hr <;> simp [hr, he]
  · intro he
    have hne : ¬ s.pos_index = s.size - 1 := by omega
    rw [if_neg hne, if_pos he]
    refine ⟨?_, ?_, ?_⟩ <;> intro hr <;> simp [hr, he]
  · intro he1 he2
    have hne1 : ¬ s.pos_index = s.size - 1 := by omega
    have hne2 : ¬ s.pos_index = 0 := by omega
    rw [if_neg hne1, if_neg hne2]
    refine ⟨?_, ?_, ?_⟩ <;> intro hr <;> simp [hr]

/-- Witness for C3: a 5-position walk at position 0 with result FORWARD
moves to position 1. -/
theorem one_walk_transition_cases_witness :
    (2 ≤ 5 ∧ (0 : Nat) < 5) ∧
    (classical_walk.one_walk
      { classical_walk.init 5 0 1 1 1 [] 0 with result := TossResult.forward }).pos_index = 1 :=
  ⟨by decide,
    ((one_walk_transition_cases _ (by decide) (by decide)).2.1 rfl).2.1 rfl⟩

/-- Invariant-carrying specification of `argmaxAux`: scanning the suffix
`l.drop i` with running best index `bi` (the first index of the maximum of
the scanned prefix, whose value is `l.getD bi 0`) lands on the first index
of the maximum of `l`. -/
lemma argmaxAux_spec : ∀ (t l : List ℚ) (i bi : Nat),
    l.drop i = t → bi < i → i ≤ l.length →
    (∀ j, j < i → l.getD j 0 ≤ l.getD bi 0) →
    (∀ j, j < bi → l.getD j 0 < l.getD bi 0) →
    argmaxAux t i bi (l.getD bi 0) < l.length ∧
    (∀ j, j < l.length → l.getD j 0 ≤ l.getD (argmaxAux t i bi (l.getD bi 0)) 0) ∧
    (∀ j, j < argmaxAux t i bi (l.getD bi 0) →
      l.getD j 0 < l.getD (argmaxAux t i bi (l.getD bi 0)) 0) := by
  intro t
  induction t with
  | nil =>
    intro l i bi hdrop hbi hi h4 h5
    have hlen : l.length ≤ i := by
      by_contra hcon
      have : l.drop i ≠ [] := by
        intro hnil
        have := List.drop_eq_nil_iff_le.mp hnil
        omega
      exact this hdrop
    have hieq : i = l.length := le_antisymm hi hlen
    subst hieq
    exact ⟨hbi, fun j hj => h4 j hj, h5⟩
  | cons a t ih =>
    intro l i bi hdrop hbi hi h4 h5
    have hi' : i < l.length := by
      by_contra hcon
      have : l.drop i = [] := List.drop_eq_nil_iff_le.mpr (by omega)
      rw [this] at hdrop
      exact List.noConfusion hdrop
    have hgetia : l.getD i 0 = a := by
      have h0 : (l.drop i).getD 0 0 = a := by rw [hdrop]; rfl
      rw [List.getD_eq_getElem?_getD] at h0 ⊢
      rw [List.getElem?_drop] at h0
      simpa using h0
    have hdrop' : l.drop (i + 1) = t := by
      have : l.drop (i + 1) = (l.drop i).drop 1 := by
        rw [List.drop_drop]
      rw [this, hdrop]
      rfl
    have heq : argmaxAux (a :: t) i bi (l.getD bi 0) =
        (if l.getD bi 0 < a then argmaxAux t (i + 1) i a
         else argmaxAux t (i + 1) bi (l.getD bi 0)) := rfl
    rw [heq]
    by_cases hlt : l.getD bi 0 < a
    · rw [if_pos hlt]
      rw [← hgetia] at hlt ⊢
      exact ih l (i + 1) i hdrop' (by omega) (by omega)
        (fun j hj => by
          rcases Nat.lt_or_ge j i with hji | hji
          · exact le_of_lt (lt_of_le_of_lt (h4 j hji) hlt)
          · have : j = i := by omega
            subst this; exact le_refl _)
        (fun j hj => lt_of_le_of_lt (h4 j hj) hlt)
    · rw [if_neg hlt]
      have hax : a ≤ l.getD bi 0 := le_of_not_lt hlt
      exact ih l (i + 1) bi hdrop' (by omega) (by omega)
        (fun j hj => by
          rcases Nat.lt_or_ge j i with hji | hji
          · exact h4 j hji
          · have : j = i := by omega
            subst this; rw [hgetia]; exact hax)
        h5

/-- `argmaxQ` returns the index of the first occurrence of the maximum:
it is in range, its value dominates every entry, and every earlier entry
is strictly smaller. -/
lemma argmaxQ_spec (l : List ℚ) (h : l ≠ []) :
    argmaxQ l < l.length ∧
    (∀ j, j < l.length → l.getD j 0 ≤ l.getD (argmaxQ l) 0) ∧
    (∀ j, j < argmaxQ l → l.getD j 0 < l.getD (argmaxQ l) 0) := by
  match l with
  | [] => exact absurd rfl h
  | a :: t =>
    have h0 : (a :: t).getD 0 0 = a := rfl
    show argmaxAux t 1 0 a < (a :: t).length ∧ _ ∧ _
    rw [← h0]
    exact argmaxAux_spec t (a :: t) 1 0 rfl (by omega) (by simp)
      (fun j hj => by interval_cases j; exact le_refl _)
      (fun j hj => by omega)

/-- C4: at the end of every trial of the exploration loop — in both
`Walk.explore` (MAB_WALKS.py line 109) and `classical_walk.explore`
(randomwalk.py line 107) — the position index is set unconditionally to
`np.argmax` of the updated empirical truth, which is the smallest index
attaining its maximum (first index wins ties); in particular for
`empiricalTruth = [0.1, 0.9, 0.3]` the next position index is 1. -/
theorem explore_greedy_reanchor :
    (∀ (decayFn : ℚ → ℚ) (s : WalkState) (walkPos : Nat) (x : Bool),
      (Walk.trialStep decayFn s walkPos x).pos_index =
        argmaxQ (Walk.trialStep decayFn s walkPos x).emp_truth) ∧
    (∀ (decayFn : ℚ → ℚ) (s : CWState) (us : List ℚ) (x : Bool),
      (classical_walk.trialStep decayFn s us x).pos_index =
        argmaxQ (classical_walk.trialStep decayFn s us x).emp_truth) ∧
    (∀ l : List ℚ, l ≠ [] →
      argmaxQ l < l.length ∧
      (∀ j, j < l.length → l.getD j 0 ≤ l.getD (argmaxQ l) 0) ∧
      (∀ j, j < l.length → l.getD j 0 = l.getD (argmaxQ l) 0 → argmaxQ l ≤ j)) ∧
    argmaxQ [1/10, 9/10, 3/10] = 1 := by
  refine ⟨fun d s wp x => rfl, fun d s us x => rfl, ?_, ?_⟩
  · intro l hl
    obtain ⟨h1, h2, h3⟩ := argmaxQ_spec l hl
    refine ⟨h1, h2, fun j hj heq => ?_⟩
    by_contra hcon
    have hstrict := h3 j (by omega)
    rw [heq] at hstrict
    exact lt_irrefl _ hstrict
  · norm_num [argmaxQ, argmaxAux]

/-- Witness for C4 on the claim's concrete list. -/
theorem explore_greedy_reanchor_witness :
    ([1/10, 9/10, 3/10] : List ℚ) ≠ [] ∧
    argmaxQ ([1/10, 9/10, 3/10] : List ℚ) < ([1/10, 9/10, 3/10] : List ℚ).length :=
  ⟨by decide, (explore_greedy_reanchor.2.2.1 _ (by decide)).1⟩

/-! ## Counter invariants (C5, C6) -/

lemma getD_set_self {α : Type} : ∀ (l : List α) (i : Nat) (a d : α), i < l.length →
    (l.set i a).getD i d = a
  | [], i, _, _, h => absurd h (by simp)
  | _ :: _, 0, _, _, _ => rfl
  | _ :: t, i + 1, a, d, h => getD_set_self t i a d (by simpa using h)

lemma getD_set_ne {α : Type} : ∀ (l : List α) (i j : Nat) (a d : α), i ≠ j →
    (l.set i a).getD j d = l.getD j d
  | [], _, _, _, _, _ => rfl
  | _ :: _, 0, 0, _, _, h => absurd rfl h
  | _ :: _, 0, _ + 1, _, _, _ => rfl
  | _ :: _, _ + 1, 0, _, _, _ => rfl
  | _ :: t, i + 1, j + 1, a, d, h => getD_set_ne t i j a d (fun hc => h (by rw [hc]))

/-- The counter/empirical-truth update shared verbatim by
`Walk.explore` (MAB_WALKS.py lines 101-104) and `classical_walk.explore`
(randomwalk.py lines 96-100) preserves both invariants. -/
lemma counters_update_ok (hap hits : List Nat) (emp : List ℚ) (size pos : Nat)
    (x : Bool) (hlh : hap.length = size) (hlt : hits.length = size)
    (hle : emp.length = size) (hpos : pos < size)
    (hOK : empOK hap hits emp size) (hLE : hapLeHits hap hits size) :
    empOK (if x then hap.set pos (hap.getD pos 0 + 1) else hap)
      (hits.set pos (hits.getD pos 0 + 1))
      (emp.set pos
        (((if x then hap.set pos (hap.getD pos 0 + 1) else hap).getD pos 0 : ℚ) /
         ((hits.set pos (hits.getD pos 0 + 1)).getD pos 0 : ℚ)))
      size ∧
    hapLeHits (if x then hap.set pos (hap.getD pos 0 + 1) else hap)
      (hits.set pos (hits.getD pos 0 + 1)) size := by
  have hhit : (hits.set pos (hits.getD pos 0 + 1)).getD pos 0 = hits.getD pos 0 + 1 :=
    getD_set_self hits pos _ 0 (by omega)
  have hhap : (if x then hap.set pos (hap.getD pos 0 + 1) else hap).getD pos 0 =
      hap.getD pos 0 + (if x then 1 else 0) := by
    cases x
    · simp
    · simpa using getD_set_self hap pos (hap.getD pos 0 + 1) 0 (by omega)
  constructor
  · intro i hi
    by_cases hip : i = pos
    · subst hip
      refine ⟨fun h0 => ?_, fun _ => ?_⟩
      · rw [hhit] at h0
        omega
      · exact getD_set_self emp i _ 0 (by omega)
    · have e1 : (if x then hap.set pos (hap.getD pos 0 + 1) else hap).getD i 0 =
          hap.getD i 0 := by
        cases x
        · simp
        · simpa using getD_set_ne hap pos i _ 0 (fun hc => hip hc.symm)
      have e2 : (hits.set pos (hits.getD pos 0 + 1)).getD i 0 = hits.getD i 0 :=
        getD_set_ne hits pos i _ 0 (fun hc => hip hc.symm)
      have e3 : (emp.set pos
          (((if x then hap.set pos (hap.getD pos 0 + 1) else hap).getD pos 0 : ℚ) /
           ((hits.set pos (hits.getD pos 0 + 1)).getD pos 0 : ℚ))).getD i 0 =
          emp.getD i 0 :=
        getD_set_ne emp pos i _ 0 (fun hc => hip hc.symm)
      rw [e1, e2, e3]
      exact hOK i hi
  · intro i hi
    by_cases hip : i = pos
    · subst hip
      rw [hhit, hhap]
      have hb := hLE i hi
      have hif : (if x then 1 else 0) ≤ 1 := by cases x <;> simp
      omega
    · have e1 : (if x then hap.set pos (hap.getD pos 0 + 1) else hap).getD i 0 =
          hap.getD i 0 := by
        cases x
        · simp
        · simpa using getD_set_ne hap pos i _ 0 (fun hc => hip hc.symm)
      have e2 : (hits.set pos (hits.getD pos 0 + 1)).getD i 0 = hits.getD i 0 :=
        getD_set_ne hits pos i _ 0 (fun hc => hip hc.symm)
      rw [e1, e2]
      exact hLE i hi

lemma Walk.init_inv (size initial_pos : Nat) (theta : ℚ) (steps j k : Nat)
    (gt : List ℚ) : (Walk.init size initial_pos theta steps j k gt).inv := by
  refine ⟨by simp [Walk.init], by simp [Walk.init], by simp [Walk.init], ?_, ?_⟩
  · intro i hi
    constructor
    · intro _
      simp [Walk.init, List.getD]
    · intro h0
      have : (Walk.init size initial_pos theta steps j k gt).hits.getD i 0 = 0 := by
        simp [Walk.init, List.getD]
      omega
  · intro i hi
    simp [Walk.init, List.getD]

lemma Walk.trialStep_inv (d : ℚ → ℚ) (s : WalkState) (wp : Nat) (x : Bool)
    (hwp : wp < s.size) (h : s.inv) : (Walk.trialStep d s wp x).inv := by
  obtain ⟨hlh, hlt, hle, hOK, hLE⟩ := h
  obtain ⟨hOK2, hLE2⟩ := counters_update_ok s.happiness s.hits s.emp_truth s.size wp x
    hlh hlt hle hwp hOK hLE
  exact ⟨by simp [Walk.trialStep, hlh]; cases x <;> simp [hlh],
    by simp [Walk.trialStep, hlt],
    by simp [Walk.trialStep, hle],
    hOK2, hLE2⟩

lemma Walk.trialStep_size (d : ℚ → ℚ) (s : WalkState) (wp : Nat) (x : Bool) :
    (Walk.trialStep d s wp x).size = s.size := rfl

lemma Walk.explore_inv (d : ℚ → ℚ) (s : WalkState) (trials : List (Nat × Bool))
    (h : s.inv) (ht : ∀ t ∈ trials, t.1 < s.size) : (Walk.explore d s trials).inv := by
  induction trials generalizing s with
  | nil => exact h
  | cons t ts ih =>
    exact ih (Walk.trialStep d s t.1 t.2)
      (Walk.trialStep_inv d s t.1 t.2 (ht t (List.mem_cons_self t ts)) h)
      (fun t' ht' => ht t' (List.mem_cons_of_mem t ht'))

lemma Walk.explore_size (d : ℚ → ℚ) (s : WalkState) (trials : List (Nat × Bool)) :
    (Walk.explore d s trials).size = s.size := by
  induction trials generalizing s with
  | nil => rfl
  | cons t ts ih => exact ih (Walk.trialStep d s t.1 t.2)

/-- `goto_pos`, `coin_toss` and `one_walk` touch none of the counter
fields. -/
lemma classical_walk.one_walk_frame (s : CWState) :
    (classical_walk.one_walk s).size = s.size ∧
    (classical_walk.one_walk s).happiness = s.happiness ∧
    (classical_walk.one_walk s).hits = s.hits ∧
    (classical_walk.one_walk s).emp_truth = s.emp_truth := by
  unfold classical_walk.one_walk
  split_ifs <;> exact ⟨rfl, rfl, rfl, rfl⟩

lemma classical_walk.walkStep_frame (s : CWState) (u : ℚ) :
    (classical_walk.walkStep s u).size = s.size ∧
    (classical_walk.walkStep s u).happiness = s.happiness ∧
    (classical_walk.walkStep s u).hits = s.hits ∧
    (classical_walk.walkStep s u).emp_truth = s.emp_truth := by
  obtain ⟨f1, f2, f3, f4⟩ :=
    classical_walk.one_walk_frame (classical_walk.coin_toss (classical_walk.goto_pos s) u)
  exact ⟨f1, f2, f3, f4⟩

/-- `one_walk` keeps the position inside `[0, size)` when `size ≥ 2`. -/
lemma classical_walk.one_walk_pos_lt (s : CWState) (h2 : 2 ≤ s.size)
    (hp : s.pos_index < s.size) : (classical_walk.one_walk s).pos_index < s.size := by
  unfold classical_walk.one_walk
  split_ifs <;> first
    | exact hp
    | (show s.pos_index - 1 < s.size; omega)
    | (show s.pos_index + 1 < s.size; omega)
    | (show (0 : Nat) < s.size; omega)
    | (show s.size - 1 < s.size; omega)

lemma classical_walk.walkStep_pos_lt (s : CWState) (u : ℚ) (h2 : 2 ≤ s.size)
    (hp : s.pos_index < s.size) : (classical_walk.walkStep s u).pos_index < s.size :=
  classical_walk.one_walk_pos_lt _ h2 hp

lemma classical_walk.walkk_frame (s : CWState) (us : List ℚ) :
    (classical_walk.walkk s us).size = s.size ∧
    (classical_walk.walkk s us).happiness = s.happiness ∧
    (classical_walk.walkk s us).hits = s.hits ∧
    (classical_walk.walkk s us).emp_truth = s.emp_truth := by
  induction us generalizing s with
  | nil => exact ⟨rfl, rfl, rfl, rfl⟩
  | cons u us ih =>
    obtain ⟨f1, f2, f3, f4⟩ := classical_walk.walkStep_frame s u
    obtain ⟨g1, g2, g3, g4⟩ := ih (classical_walk.walkStep s u)
    exact ⟨g1.trans f1, g2.trans f2, g3.trans f3, g4.trans f4⟩

lemma classical_walk.walkk_pos_lt (s : CWState) (us : List ℚ) (h2 : 2 ≤ s.size)
    (hp : s.pos_index < s.size) : (classical_walk.walkk s us).pos_index < s.size := by
  induction us generalizing s with
  | nil => exact hp
  | cons u us ih =>
    have hsz : (classical_walk.walkStep s u).size = s.size :=
      (classical_walk.walkStep_frame s u).1
    have hrec := ih (classical_walk.walkStep s u) (by rw [hsz]; exact h2)
      (by rw [hsz]; exact classical_walk.walkStep_pos_lt s u h2 hp)
    show (classical_walk.walkk (classical_walk.walkStep s u) us).pos_index < s.size
    rwa [hsz] at hrec

lemma classical_walk.cwInit_inv (size initial_pos steps j k : Nat) (gt : List ℚ)
    (tv : ℚ) (h2 : 2 ≤ size) (hp : initial_pos < size) :
    (classical_walk.init size initial_pos steps j k gt tv).inv := by
  refine ⟨h2, hp, by simp [classical_walk.init], by simp [classical_walk.init],
    by simp [classical_walk.init], ?_, ?_⟩
  · intro i hi
    constructor
    · intro _
      simp [classical_walk.init, List.getD]
    · intro h0
      have : (classical_walk.init size initial_pos steps j k gt tv).hits.getD i 0 = 0 := by
        simp [classical_walk.init, List.getD]
      omega
  · intro i hi
    simp [classical_walk.init, List.getD]

lemma classical_walk.updatePhase_inv (d : ℚ → ℚ) (s1 : CWState) (x : Bool)
    (h : s1.inv) : (classical_walk.updatePhase d s1 x).inv := by
  obtain ⟨h2, hp, hlh, hlt, hle, hOK, hLE⟩ := h
  obtain ⟨hOK2, hLE2⟩ := counters_update_ok s1.happiness s1.hits s1.emp_truth s1.size
    s1.pos_index x hlh hlt hle hp hOK hLE
  have hemplen : (classical_walk.updatePhase d s1 x).emp_truth.length = s1.size := by
    simp [classical_walk.updatePhase]
    exact hle
  have hne : (classical_walk.updatePhase d s1 x).emp_truth ≠ [] := by
    intro hnil
    rw [hnil] at hemplen
    simp at hemplen
    omega
  have hargm := (argmaxQ_spec _ hne).1
  rw [hemplen] at hargm
  refine ⟨h2, hargm, ?_, ?_, hemplen, hOK2, hLE2⟩
  · show (if x then s1.happiness.set s1.pos_index (s1.happiness.getD s1.pos_index 0 + 1)
        else s1.happiness).length = s1.size
    cases x <;> simp [hlh]
  · show (s1.hits.set s1.pos_index (s1.hits.getD s1.pos_index 0 + 1)).length = s1.size
    simp [hlt]

lemma classical_walk.cwTrialStep_inv (d : ℚ → ℚ) (s : CWState) (us : List ℚ)
    (x : Bool) (h : s.inv) : (classical_walk.trialStep d s us x).inv := by
  obtain ⟨h2, hp, hlh, hlt, hle, hOK, hLE⟩ := h
  obtain ⟨w1, w2, w3, w4⟩ := classical_walk.walkk_frame s us
  refine classical_walk.updatePhase_inv d (classical_walk.walkk s us) x
    ⟨by rw [w1]; exact h2, ?_, ?_, ?_, ?_, ?_, ?_⟩
  · rw [w1]
    exact classical_walk.walkk_pos_lt s us h2 hp
  · rw [w1, w2]
    exact hlh
  · rw [w1, w3]
    exact hlt
  · rw [w1, w4]
    exact hle
  · rw [w1, w2, w3, w4]
    exact hOK
  · rw [w1, w2, w3]
    exact hLE

lemma classical_walk.cwTrialStep_size (d : ℚ → ℚ) (s : CWState) (us : List ℚ)
    (x : Bool) : (classical_walk.trialStep d s us x).size = s.size :=
  (classical_walk.walkk_frame s us).1

lemma classical_walk.cwExplore_inv (d : ℚ → ℚ) (s : CWState)
    (trials : List (List ℚ × Bool)) (h : s.inv) :
    (classical_walk.explore d s trials).inv := by
  induction trials generalizing s with
  | nil => exact h
  | cons t ts ih => exact ih _ (classical_walk.cwTrialStep_inv d s t.1 t.2 h)

lemma classical_walk.cwExplore_size (d : ℚ → ℚ) (s : CWState)
    (trials : List (List ℚ × Bool)) : (classical_walk.explore d s trials).size = s.size := by
  induction trials generalizing s with
  | nil => rfl
  | cons t ts ih =>
    exact (ih (classical_walk.trialStep d s t.1 t.2)).trans
      (classical_walk.cwTrialStep_size d s t.1 t.2)

/-- C5: after every trial of the exploration loop (i.e. for every list of
per-trial random inputs — every prefix of a run is itself such a list),
every position `i` has `empiricalTruth[i] = happiness[i] / hits[i]`
exactly whenever `hits[i] > 0` and `empiricalTruth[i] = 0` whenever
`hits[i] = 0` — at all positions, not only the one visited last.  Proved
for both `Walk.explore` (with the walked-to positions in range) and
`classical_walk.explore` (whose walk keeps the position in range once
`size ≥ 2` and the initial position is in range). -/
theorem explore_empirical_truth_exact :
    (∀ (decayFn : ℚ → ℚ) (size initial_pos : Nat) (theta : ℚ) (steps jj kk : Nat)
        (gt : List ℚ) (trials : List (Nat × Bool)),
      (∀ t ∈ trials, t.1 < size) →
      empOK (Walk.explore decayFn (Walk.init size initial_pos theta steps jj kk gt)
          trials).happiness
        (Walk.explore decayFn (Walk.init size initial_pos theta steps jj kk gt)
          trials).hits
        (Walk.explore decayFn (Walk.init size initial_pos theta steps jj kk gt)
          trials).emp_truth
        size) ∧
    (∀ (decayFn : ℚ → ℚ) (size initial_pos steps jj kk : Nat) (gt : List ℚ) (tv : ℚ)
        (trials : List (List ℚ × Bool)),
      2 ≤ size → initial_pos < size →
      empOK (classical_walk.explore decayFn
          (classical_walk.init size initial_pos steps jj kk gt tv) trials).happiness
        (classical_walk.explore decayFn
          (classical_walk.init size initial_pos steps jj kk gt tv) trials).hits
        (classical_walk.explore decayFn
          (classical_walk.init size initial_pos steps jj kk gt tv) trials).emp_truth
        size) := by
  constructor
  · intro d size ip theta st jj kk gt trials ht
    have hinv := Walk.explore_inv d (Walk.init size ip theta st jj kk gt) trials
      (Walk.init_inv size ip theta st jj kk gt) ht
    have hsz := Walk.explore_size d (Walk.init size ip theta st jj kk gt) trials
    have h4 := hinv.2.2.2.1
    rw [hsz] at h4
    exact h4
  · intro d size ip st jj kk gt tv trials h2 hp
    have hinv := classical_walk.cwExplore_inv d
      (classical_walk.init size ip st jj kk gt tv) trials
      (classical_walk.cwInit_inv size ip st jj kk gt tv h2 hp)
    have hsz := classical_walk.cwExplore_size d
      (classical_walk.init size ip st jj kk gt tv) trials
    have h4 := hinv.2.2.2.2.2.1
    rw [hsz] at h4
    exact h4

/-- Witness for C5: one trial on each variant. -/
theorem explore_empirical_truth_exact_witness :
    (∀ t ∈ ([(1, true)] : List (Nat × Bool)), t.1 < 2) ∧
    empOK (Walk.explore id (Walk.init 2 0 1 1 1 1 [0, 1]) [(1, true)]).happiness
      (Walk.explore id (Walk.init 2 0 1 1 1 1 [0, 1]) [(1, true)]).hits
      (Walk.explore id (Walk.init 2 0 1 1 1 1 [0, 1]) [(1, true)]).emp_truth 2 ∧
    (2 ≤ 2 ∧ (0 : Nat) < 2) ∧
    empOK (classical_walk.explore id (classical_walk.init 2 0 1 1 1 [0, 1] 0)
        [([0], true)]).happiness
      (classical_walk.explore id (classical_walk.init 2 0 1 1 1 [0, 1] 0)
        [([0], true)]).hits
      (classical_walk.explore id (classical_walk.init 2 0 1 1 1 [0, 1] 0)
        [([0], true)]).emp_truth 2 :=
  ⟨by decide,
    explore_empirical_truth_exact.1 id 2 0 1 1 1 1 [0, 1] [(1, true)] (by decide),
    by decide,
    explore_empirical_truth_exact.2 id 2 0 1 1 1 [0, 1] 0 [([0], true)]
      (by decide) (by decide)⟩

/-- C6: after every trial of the exploration loop (for every list of
per-trial random inputs), `happiness[i] ≤ hits[i]` holds at every
position `i`: `happiness` is incremented at most once per trial, and only
at the position whose `hits` counter is incremented in the same trial.
Proved for both `Walk.explore` and `classical_walk.explore`. -/
theorem explore_happiness_le_hits :
    (∀ (decayFn : ℚ → ℚ) (size initial_pos : Nat) (theta : ℚ) (steps jj kk : Nat)
        (gt : List ℚ) (trials : List (Nat × Bool)),
      (∀ t ∈ trials, t.1 < size) →
      hapLeHits (Walk.explore decayFn (Walk.init size initial_pos theta steps jj kk gt)
          trials).happiness
        (Walk.explore decayFn (Walk.init size initial_pos theta steps jj kk gt)
          trials).hits
        size) ∧
    (∀ (decayFn : ℚ → ℚ) (size initial_pos steps jj kk : Nat) (gt : List ℚ) (tv : ℚ)
        (trials : List (List ℚ × Bool)),
      2 ≤ size → initial_pos < size →
      hapLeHits (classical_walk.explore decayFn
          (classical_walk.init size initial_pos steps jj kk gt tv) trials).happiness
        (classical_walk.explore decayFn
          (classical_walk.init size initial_pos steps jj kk gt tv) trials).hits
        size) := by
  constructor
  · intro d size ip theta st jj kk gt trials ht
    have hinv := Walk.explore_inv d (Walk.init size ip theta st jj kk gt) trials
      (Walk.init_inv size ip theta st jj kk gt) ht
    have hsz := Walk.explore_size d (Walk.init size ip theta st jj kk gt) trials
    have h5 := hinv.2.2.2.2
    rw [hsz] at h5
    exact h5
  · intro d size ip st jj kk gt tv trials h2 hp
    have hinv := classical_walk.cwExplore_inv d
      (classical_walk.init size ip st jj kk gt tv) trials
      (classical_walk.cwInit_inv size ip st jj kk gt tv h2 hp)
    have hsz := classical_walk.cwExplore_size d
      (classical_walk.init size ip st jj kk gt tv) trials
    have h5 := hinv.2.2.2.2.2.2
    rw [hsz] at h5
    exact h5

/-- Witness for C6: two trials on the MAB variant, one on the classical
variant. -/
theorem explore_happiness_le_hits_witness :
    (∀ t ∈ ([(1, true), (0, false)] : List (Nat × Bool)), t.1 < 2) ∧
    hapLeHits (Walk.explore id (Walk.init 2 0 1 1 1 1 [0, 1])
        [(1, true), (0, false)]).happiness
      (Walk.explore id (Walk.init 2 0 1 1 1 1 [0, 1]) [(1, true), (0, false)]).hits 2 ∧
    (2 ≤ 2 ∧ (1 : Nat) < 2) ∧
    hapLeHits (classical_walk.explore id (classical_walk.init 2 1 1 1 1 [0, 1] 0)
        [([1], false)]).happiness
      (classical_walk.explore id (classical_walk.init 2 1 1 1 1 [0, 1] 0)
        [([1], false)]).hits 2 :=
  ⟨by decide,
    explore_happiness_le_hits.1 id 2 0 1 1 1 1 [0, 1] [(1, true), (0, false)] (by decide),
    by decide,
    explore_happiness_le_hits.2 id 2 1 1 1 1 [0, 1] 0 [([1], false)]
      (by decide) (by decide)⟩

end QTSIT
